import Mathlib

/-!
Verification of the autoregressive decoding orchestrator
`SequenceToSequence.forward` from `src/models/sequence_to_sequence.py`.

The orchestrator is embedded shallowly: integer tensors carry an explicit
shape, fallible PyTorch operations (here: `reshape`) return `Except`, and
every collaborator invocation is recorded in a chronological trace so that
call-count and call-order properties can be stated.  The Encoder and Decoder
collaborators (`encoder.py` / `decoder.py`, imported by the source file but
not part of the analysed sources) are modelled from the spec as opaque
capability interfaces.
-/

/-- Errors surfaced by shape-sensitive tensor operations.  In PyTorch a
`reshape` whose element count does not match the requested shape raises a
shape-mismatch `RuntimeError`; the spec calls this failure
`ShapeMismatchError`, and the embedding uses the spec's name for it. -/
inductive SeqErr where
  | ShapeMismatchError
deriving DecidableEq

/-- An integer tensor with an explicit shape and row-major flat data.  Token
ids are integers in the source; decoder scores are modelled as integers as
well, since the orchestrator only compares them (`argmax`), never does
arithmetic on them. -/
structure Tensor where
  shape : List Nat
  data : List Int
deriving DecidableEq

/-- Models `torch.Tensor.reshape`: the flat data is kept and the shape is
replaced, provided the element count matches; otherwise the operation fails
with a shape mismatch, exactly as `torch.reshape` raises. -/
def Tensor.reshape (t : Tensor) (s : List Nat) : Except SeqErr Tensor :=
  if t.data.length = s.prod then .ok ⟨s, t.data⟩ else .error .ShapeMismatchError

/-- A 2-D token tensor of declared shape `(rows, cols)` stored as a list of
rows; `rows` is the batch size and `cols` the sequence length. -/
structure Tensor2 where
  rows : Nat
  cols : Nat
  data : List (List Int)
deriving DecidableEq

/-- Well-formedness of a 2-D tensor: the stored rows really have the declared
rectangular shape (always true of an actual `torch.Tensor`). -/
def Tensor2.wf (t : Tensor2) : Prop :=
  t.data.length = t.rows ∧ ∀ r ∈ t.data, r.length = t.cols

instance (t : Tensor2) : Decidable t.wf := by
  unfold Tensor2.wf; infer_instance

/-- Models the column read `t[:, j]`: the 1-D tensor collecting entry `j` of
every row.  Only used with `j < t.cols`, where the default of `getD` is never
reached on a well-formed tensor. -/
def Tensor2.col (t : Tensor2) (j : Nat) : Tensor :=
  ⟨[t.data.length], t.data.map (fun r => r.getD j 0)⟩

/-- Scan of a score row continuing from index `i`, with current best value
`bv` at best index `best`; the best index moves only on a strictly larger
value, so ties keep the first maximal index — the `torch.argmax`
convention. -/
def argmaxFrom : List Int → Nat → Int → Nat → Nat
  | [], _, _, best => best
  | x :: xs, i, bv, best =>
      if bv < x then argmaxFrom xs (i + 1) x i else argmaxFrom xs (i + 1) bv best

/-- Models `torch.argmax` over one (nonempty) score row: the first index
attaining the maximum. -/
def argmaxRow : List Int → Nat
  | [] => 0
  | x :: xs => argmaxFrom xs 1 x 0

/-- Models `d.argmax(1)` on a 2-D score tensor given as rows: the reduction
removes the vocabulary axis (`keepdim` defaults to false), so the result is a
1-D tensor of length `d.length` (the batch size). -/
def argmax1 (d : List (List Int)) : Tensor :=
  ⟨[d.length], d.map (fun r => (argmaxRow r : Int))⟩

/-- Modelled from the spec: the Encoder collaborator (`encoder.py` is not
among the analysed sources).  `encode` maps the tokenized source batch to the
initial recurrent state pair `(hidden, cell)`; the state representation `σ`
is opaque to the orchestrator. -/
structure Encoder (σ : Type) where
  encode : Tensor2 → σ × σ

/-- Modelled from the spec: the Decoder collaborator (`decoder.py` is not
among the analysed sources).  `out_features` is the declared output width of
its final projection, read by the orchestrator as
`self.decoder.fc_out.out_features`; `step` maps one decoder input and the
recurrent state pair to the per-step score rows (spec shape
`(batch_size, out_features)`) and the updated state pair. -/
structure Decoder (σ : Type) where
  out_features : Nat
  step : Tensor → σ → σ → List (List Int) × σ × σ

/-- The spec's consistency condition on a decoder for batch size `B`: every
emitted score tensor has `B` rows of width `out_features`. -/
def Decoder.wfFor {σ : Type} (dec : Decoder σ) (B : Nat) : Prop :=
  ∀ inp h c, ((dec.step inp h c).1).length = B ∧
    ∀ r ∈ (dec.step inp h c).1, r.length = dec.out_features

/-- Models `torch.zeros(size=(B, T, V))` as nested rows. -/
def zeros3 (B T V : Nat) : List (List (List Int)) :=
  List.replicate B (List.replicate T (List.replicate V 0))

/-- Models the slice assignment `output[:, i] = decoder_output` for score
rows `d` of matching batch size: row `b` of the buffer gets its time slot `i`
replaced by `d[b]`. -/
def writeStep (out : List (List (List Int))) (i : Nat) (d : List (List Int)) :
    List (List (List Int)) :=
  List.zipWith (fun bRow dRow => bRow.set i dRow) out d

/-- Models the read `output[:, t]` of the accumulated buffer: the
`(batch, vocab)` slice at time index `t`. -/
def timeSlice (out : List (List (List Int))) (t : Nat) : List (List Int) :=
  out.map (fun bRow => bRow.getD t [])

/-- One collaborator invocation, in call order: `encodeCall` for the single
`self.encoder(...)` call, and `decodeCall i inp d` for the
`self.decoder(target_input, ...)` call of loop iteration `i`, recording the
decoder input actually fed and the score rows it returned. -/
inductive CallEvent where
  | encodeCall : CallEvent
  | decodeCall : Nat → Tensor → List (List Int) → CallEvent
deriving DecidableEq

/-- The decoder-call events of a trace, in order, as
`(iteration index, input fed, scores returned)` triples. -/
def decodeEvents (tr : List CallEvent) : List (Nat × Tensor × List (List Int)) :=
  tr.filterMap (fun e => match e with
    | .encodeCall => none
    | .decodeCall i inp d => some (i, inp, d))

/-- The state threaded through the decoding loop of `forward`: the output
buffer, the recurrent pair, the pending decoder input (`target_input` in the
source), and the instrumentation trace. -/
structure LoopSt (σ : Type) where
  out : List (List (List Int))
  hidden : σ
  cell : σ
  target_input : Tensor
  trace : List CallEvent

/-- One iteration of `for prediction_index in range(1, target_sentence_length)`:
call the decoder on the pending input and state, write the returned scores at
time `prediction_index`, then select the next `target_input` — the
ground-truth column `prediction_index` reshaped to `(batch_size, 1)` when
`teacher_forcing` holds, else `decoder_output.argmax(1)`. -/
def stepBody {σ : Type} (dec : Decoder σ) (tgt : Tensor2) (batch_size : Nat)
    (teacher_forcing : Bool) (s : LoopSt σ) (prediction_index : Nat) :
    Except SeqErr (LoopSt σ) :=
  let r := dec.step s.target_input s.hidden s.cell
  (if teacher_forcing then (tgt.col prediction_index).reshape [batch_size, 1]
   else Except.ok (argmax1 r.1)).map
    (fun next =>
      ⟨writeStep s.out prediction_index r.1, r.2.1, r.2.2, next,
        s.trace ++ [CallEvent.decodeCall prediction_index s.target_input r.1]⟩)

/-- Total description of one loop iteration, applicable once the `reshape`
inside the teacher-forcing branch is known to succeed (which it does as soon
as the start-token reshape before the loop has succeeded). -/
def stepPure {σ : Type} (dec : Decoder σ) (tgt : Tensor2) (batch_size : Nat)
    (teacher_forcing : Bool) (s : LoopSt σ) (prediction_index : Nat) : LoopSt σ :=
  let r := dec.step s.target_input s.hidden s.cell
  ⟨writeStep s.out prediction_index r.1, r.2.1, r.2.2,
    (if teacher_forcing then ⟨[batch_size, 1], (tgt.col prediction_index).data⟩
     else argmax1 r.1),
    s.trace ++ [CallEvent.decodeCall prediction_index s.target_input r.1]⟩

/-- The orchestrator: its injected Encoder and Decoder collaborators (the
`device` field of the source class only places tensors and has no
computational content in the embedding). -/
structure SequenceToSequence (σ : Type) where
  encoder : Encoder σ
  decoder : Decoder σ

/-- Shallow embedding of `SequenceToSequence.forward`.  Mirrors the source
line by line: read `batch_size` from the source tensor, the target length
from the target tensor and the vocabulary width from the decoder's declared
`out_features`; allocate the zero output buffer; invoke the encoder once;
reshape column 0 of the target to `(batch_size, 1)` as the first decoder
input; then run the decoding loop over `range(1, target_sentence_length)`.
The result pairs the returned buffer with the collaborator-call trace; the
`.error` case models the call raising before any buffer reaches the
caller. -/
def SequenceToSequence.forward {σ : Type} (m : SequenceToSequence σ)
    (tokenized_source_sentence tokenized_target_sentence : Tensor2)
    (teacher_forcing : Bool := true) :
    Except SeqErr (List (List (List Int)) × List CallEvent) :=
  let batch_size := tokenized_source_sentence.rows
  let target_sentence_length := tokenized_target_sentence.cols
  let target_sentence_vocab_length := m.decoder.out_features
  let output := zeros3 batch_size target_sentence_length target_sentence_vocab_length
  let hc := m.encoder.encode tokenized_source_sentence
  ((tokenized_target_sentence.col 0).reshape [batch_size, 1]).bind (fun target_input =>
    ((List.range' 1 (target_sentence_length - 1)).foldlM
        (stepBody m.decoder tokenized_target_sentence batch_size teacher_forcing)
        ⟨output, hc.1, hc.2, target_input, [CallEvent.encodeCall]⟩).map
      (fun fin => (fin.out, fin.trace)))

/-- The loop state just before the decoding loop of `forward` starts, for a
run whose start-token reshape succeeded: zero buffer, the encoder's state
pair, column 0 of the target reshaped to `(batch_size, 1)`, and a trace
holding the single encoder call. -/
def initSt {σ : Type} (m : SequenceToSequence σ) (src tgt : Tensor2) : LoopSt σ :=
  ⟨zeros3 src.rows tgt.cols m.decoder.out_features,
    (m.encoder.encode src).1, (m.encoder.encode src).2,
    ⟨[src.rows, 1], (tgt.col 0).data⟩, [CallEvent.encodeCall]⟩

/-- The loop state after the decoding loop of a successful `forward` run. -/
def finSt {σ : Type} (m : SequenceToSequence σ) (src tgt : Tensor2) (tf : Bool) :
    LoopSt σ :=
  (List.range' 1 (tgt.cols - 1)).foldl (stepPure m.decoder tgt src.rows tf)
    (initSt m src tgt)

/-- A trivial encoder over the unit state, used to exercise the orchestrator
on concrete inputs. -/
def cexEnc : Encoder Unit := ⟨fun _ => ((), ())⟩

/-- A constant decoder with vocabulary width 3 that always emits the single
score row `[0, 5, 2]` (argmax index 1), used to exercise the orchestrator on
concrete inputs. -/
def cexDec : Decoder Unit := ⟨3, fun _ _ _ => ([[0, 5, 2]], (), ())⟩

/-- A decoder that agrees with `cexDec` on every input of shape
`(batch, 1)` but emits different scores on flat inputs. -/
def cexDec2 : Decoder Unit :=
  ⟨3, fun inp _ _ => if inp.shape = [1, 1] then ([[0, 5, 2]], (), ()) else ([[9, 9, 9]], (), ())⟩

/-- Concrete orchestrator built from the trivial collaborators. -/
def cexModel : SequenceToSequence Unit := ⟨cexEnc, cexDec⟩

/-- Concrete orchestrator using the alternative decoder `cexDec2`. -/
def cexModel2 : SequenceToSequence Unit := ⟨cexEnc, cexDec2⟩

/-- Concrete source batch: 1 sentence of length 1. -/
def cexSrc : Tensor2 := ⟨1, 1, [[0]]⟩

/-- Concrete target batch: 1 sentence of length 3, all tokens 0. -/
def cexTgt : Tensor2 := ⟨1, 3, [[0, 0, 0]]⟩

/-- Concrete target batch of length 1 (start token only). -/
def cexTgt1 : Tensor2 := ⟨1, 1, [[0]]⟩

/-- Concrete source batch of 3 sentences, for the batch-mismatch scenario. -/
def cexSrc3 : Tensor2 := ⟨3, 1, [[0], [1], [2]]⟩

/-- Concrete target batch of 2 sentences, for the batch-mismatch scenario. -/
def cexTgtB2 : Tensor2 := ⟨2, 2, [[0, 1], [0, 2]]⟩

/-- The buffer produced by `cexModel` on `cexSrc`/`cexTgt` (either policy):
time position 0 untouched, positions 1 and 2 carrying the constant scores. -/
def cexBuf : List (List (List Int)) := [[[0, 0, 0], [0, 5, 2], [0, 5, 2]]]

/-- The call trace of the teacher-forced `cexModel` run on `cexSrc`/`cexTgt`:
both decoder calls receive a ground-truth column reshaped to `(1, 1)`. -/
def cexTraceTF : List CallEvent :=
  [CallEvent.encodeCall,
   CallEvent.decodeCall 1 ⟨[1, 1], [0]⟩ [[0, 5, 2]],
   CallEvent.decodeCall 2 ⟨[1, 1], [0]⟩ [[0, 5, 2]]]

/-- The call trace of the greedy `cexModel` run on `cexSrc`/`cexTgt`: the
second decoder call receives the flat argmax tensor of shape `(1,)`. -/
def cexTraceGreedy : List CallEvent :=
  [CallEvent.encodeCall,
   CallEvent.decodeCall 1 ⟨[1, 1], [0]⟩ [[0, 5, 2]],
   CallEvent.decodeCall 2 ⟨[1], [1]⟩ [[0, 5, 2]]]

/-- Binding a successful `Except` computation applies the continuation. -/
theorem except_bind_ok {ε α β : Type} (a : α) (f : α → Except ε β) :
    (Except.ok a : Except ε α).bind f = f a := rfl

/-- Binding a failed `Except` computation propagates the error. -/
theorem except_bind_error {ε α β : Type} (e : ε) (f : α → Except ε β) :
    (Except.error e : Except ε α).bind f = .error e := rfl

/-- Mapping over a successful `Except` computation applies the function. -/
theorem except_map_ok {ε α β : Type} (a : α) (f : α → β) :
    (Except.ok a : Except ε α).map f = .ok (f a) := rfl

/-- Monadic bind of a successful `Except` computation, in `>>=` form. -/
theorem except_ok_bind {ε α β : Type} (a : α) (f : α → Except ε β) :
    ((Except.ok a : Except ε α) >>= f) = f a := rfl

/-- Setting index `i` of a list leaves the value read at any other index
unchanged. -/
theorem getD_set_ne {α : Type} (l : List α) (i j : Nat) (x d : α) (h : i ≠ j) :
    (l.set i x).getD j d = l.getD j d := by
  induction l generalizing i j with
  | nil => rfl
  | cons a t ih =>
    cases i with
    | zero =>
      cases j with
      | zero => exact absurd rfl h
      | succ m => rfl
    | succ n =>
      cases j with
      | zero => rfl
      | succ m =>
        simp only [List.set_cons_succ, List.getD_cons_succ]
        exact ih n m (fun hh => h (by rw [hh]))

/-- Setting an in-range index of a list makes that index read the new
value. -/
theorem getD_set_eq {α : Type} (l : List α) (i : Nat) (x d : α)
    (h : i < l.length) : (l.set i x).getD i d = x := by
  induction l generalizing i with
  | nil => simp at h
  | cons a t ih =>
    cases i with
    | zero => rfl
    | succ n =>
      simp only [List.set_cons_succ, List.getD_cons_succ]
      exact ih n (by simpa using h)

/-- Every member of `l.set i x` is a member of `l` or is the new value. -/
theorem mem_of_mem_set {α : Type} (l : List α) (i : Nat) (x a : α)
    (h : a ∈ l.set i x) : a ∈ l ∨ a = x := by
  induction l generalizing i with
  | nil => simp [List.set] at h
  | cons b t ih =>
    cases i with
    | zero =>
      rcases List.mem_cons.mp h with h1 | h1
      · exact Or.inr h1
      · exact Or.inl (List.mem_cons_of_mem _ h1)
    | succ n =>
      rcases List.mem_cons.mp h with h1 | h1
      · exact Or.inl (h1 ▸ List.mem_cons_self _ _)
      · rcases ih n h1 with h2 | h2
        · exact Or.inl (List.mem_cons_of_mem _ h2)
        · exact Or.inr h2

/-- Unfolding equation of `writeStep` on matching cons cells. -/
theorem writeStep_cons (b : List (List Int)) (t : List (List (List Int)))
    (dr : List Int) (ds : List (List Int)) (i : Nat) :
    writeStep (b :: t) i (dr :: ds) = b.set i dr :: writeStep t i ds := rfl

/-- Unfolding equation of `timeSlice` on a cons cell. -/
theorem timeSlice_cons (b : List (List Int)) (t : List (List (List Int)))
    (j : Nat) : timeSlice (b :: t) j = b.getD j [] :: timeSlice t j := rfl

/-- Every batch row of a written buffer arises from a batch row of the
original buffer by a single `set` at the written time index. -/
theorem exists_of_mem_writeStep (out : List (List (List Int))) (i : Nat)
    (d : List (List Int)) (row : List (List Int)) (h : row ∈ writeStep out i d) :
    ∃ bRow ∈ out, ∃ dr ∈ d, row = bRow.set i dr := by
  induction out generalizing d with
  | nil => simp [writeStep] at h
  | cons b t ih =>
    cases d with
    | nil => simp [writeStep] at h
    | cons dr ds =>
      rw [writeStep_cons] at h
      rcases List.mem_cons.mp h with h1 | h1
      · exact ⟨b, List.mem_cons_self _ _, dr, List.mem_cons_self _ _, h1⟩
      · obtain ⟨bR, hb, dr', hd', hdr⟩ := ih ds h1
        exact ⟨bR, List.mem_cons_of_mem _ hb, dr', List.mem_cons_of_mem _ hd', hdr⟩

/-- A slice write of a full-width distribution is read back exactly at the
written time index. -/
theorem timeSlice_writeStep_self (out : List (List (List Int)))
    (d : List (List Int)) (i : Nat) (hlen : out.length = d.length)
    (hrow : ∀ bRow ∈ out, i < bRow.length) :
    timeSlice (writeStep out i d) i = d := by
  induction out generalizing d with
  | nil =>
    cases d with
    | nil => rfl
    | cons dr ds => simp at hlen
  | cons b t ih =>
    cases d with
    | nil => simp at hlen
    | cons dr ds =>
      rw [writeStep_cons, timeSlice_cons]
      rw [getD_set_eq b i dr [] (hrow b (List.mem_cons_self _ _))]
      rw [ih ds (by simpa using hlen)
        (fun r hr => hrow r (List.mem_cons_of_mem _ hr))]

/-- A slice write of a full-width distribution leaves every other time index
of the buffer unchanged. -/
theorem timeSlice_writeStep_ne (out : List (List (List Int)))
    (d : List (List Int)) (i j : Nat) (hlen : out.length = d.length)
    (hne : j ≠ i) : timeSlice (writeStep out i d) j = timeSlice out j := by
  induction out generalizing d with
  | nil => rfl
  | cons b t ih =>
    cases d with
    | nil => simp at hlen
    | cons dr ds =>
      rw [writeStep_cons, timeSlice_cons, timeSlice_cons]
      rw [getD_set_ne b i j dr [] (fun hh => hne hh.symm)]
      rw [ih ds (by simpa using hlen)]

/-- A slice write of a full-width distribution preserves the number of batch
rows of the buffer. -/
theorem length_writeStep (out : List (List (List Int))) (i : Nat)
    (d : List (List Int)) (hlen : out.length = d.length) :
    (writeStep out i d).length = out.length := by
  simp [writeStep, hlen]

/-- As long as the target batch matches the orchestrator's batch size, one
fallible loop iteration succeeds and agrees with the total description. -/
theorem stepBody_eq {σ : Type} (dec : Decoder σ) (tgt : Tensor2) (B : Nat)
    (tf : Bool) (h : tgt.data.length = B) (s : LoopSt σ) (i : Nat) :
    stepBody dec tgt B tf s i = .ok (stepPure dec tgt B tf s i) := by
  cases tf with
  | false => rfl
  | true =>
    have hres : (tgt.col i).reshape [B, 1] = .ok ⟨[B, 1], (tgt.col i).data⟩ := by
      simp [Tensor.reshape, Tensor2.col, h]
    simp [stepBody, stepPure, hres, Except.map]

/-- As long as the target batch matches the orchestrator's batch size, the
whole fallible decoding loop succeeds and agrees with the total fold. -/
theorem foldlM_stepBody {σ : Type} (dec : Decoder σ) (tgt : Tensor2) (B : Nat)
    (tf : Bool) (h : tgt.data.length = B) :
    ∀ (l : List Nat) (s : LoopSt σ),
      l.foldlM (stepBody dec tgt B tf) s
        = .ok (l.foldl (stepPure dec tgt B tf) s) := by
  intro l
  induction l with
  | nil => intro s; rfl
  | cons i t ih =>
    intro s
    rw [List.foldlM_cons, stepBody_eq dec tgt B tf h s i, except_ok_bind,
      List.foldl_cons]
    exact ih (stepPure dec tgt B tf s i)

/-- Characterization of a successful `forward` run: when the target batch
matches the source batch, the run returns the buffer and trace of the total
fold from the initial loop state. -/
theorem forward_ok {σ : Type} (m : SequenceToSequence σ) (src tgt : Tensor2)
    (tf : Bool) (h : tgt.data.length = src.rows) :
    m.forward src tgt tf
      = .ok ((finSt m src tgt tf).out, (finSt m src tgt tf).trace) := by
  have hres : (tgt.col 0).reshape [src.rows, 1]
      = .ok ⟨[src.rows, 1], (tgt.col 0).data⟩ := by
    simp [Tensor.reshape, Tensor2.col, h]
  unfold SequenceToSequence.forward
  simp only [hres, except_bind_ok,
    foldlM_stepBody m.decoder tgt src.rows tf h, except_map_ok, finSt, initSt]

/-- When the target batch does not match the source batch, the start-token
reshape fails, so `forward` fails with `ShapeMismatchError` before any
buffer exists. -/
theorem forward_mismatch {σ : Type} (m : SequenceToSequence σ)
    (src tgt : Tensor2) (tf : Bool) (h : tgt.data.length ≠ src.rows) :
    m.forward src tgt tf = .error SeqErr.ShapeMismatchError := by
  have hres : (tgt.col 0).reshape [src.rows, 1]
      = .error .ShapeMismatchError := by
    simp [Tensor.reshape, Tensor2.col, h]
  unfold SequenceToSequence.forward
  simp only [hres, except_bind_error]

/-- A successful `forward` run certifies that the target batch matches the
source batch. -/
theorem rows_of_forward_ok {σ : Type} (m : SequenceToSequence σ)
    (src tgt : Tensor2) (tf : Bool) (out : List (List (List Int)))
    (tr : List CallEvent) (h : m.forward src tgt tf = .ok (out, tr)) :
    tgt.data.length = src.rows := by
  by_contra hne
  rw [forward_mismatch m src tgt tf hne] at h
  exact Except.noConfusion h

/-- The buffer and trace of a successful `forward` run are those of the
total fold. -/
theorem forward_ok_elim {σ : Type} (m : SequenceToSequence σ)
    (src tgt : Tensor2) (tf : Bool) (out : List (List (List Int)))
    (tr : List CallEvent) (h : m.forward src tgt tf = .ok (out, tr)) :
    out = (finSt m src tgt tf).out ∧ tr = (finSt m src tgt tf).trace := by
  have hr := rows_of_forward_ok m src tgt tf out tr h
  rw [forward_ok m src tgt tf hr] at h
  simp only [Except.ok.injEq, Prod.mk.injEq] at h
  exact ⟨h.1.symm, h.2.symm⟩

/-- The decoding loop appends exactly one decoder-call event per iteration,
in iteration order, to the trace — whatever the policy and collaborators. -/
theorem foldl_trace {σ : Type} (dec : Decoder σ) (tgt : Tensor2) (B : Nat)
    (tf : Bool) (l : List Nat) (s : LoopSt σ) :
    ∃ evts : List (Nat × Tensor × List (List Int)),
      (l.foldl (stepPure dec tgt B tf) s).trace
        = s.trace ++ evts.map (fun e => CallEvent.decodeCall e.1 e.2.1 e.2.2) ∧
      evts.map (fun e => e.1) = l := by
  induction l generalizing s with
  | nil => exact ⟨[], by simp⟩
  | cons i t ih =>
    obtain ⟨evts, h1, h2⟩ := ih (stepPure dec tgt B tf s i)
    refine ⟨(i, s.target_input, (dec.step s.target_input s.hidden s.cell).1)
      :: evts, ?_, ?_⟩
    · rw [List.foldl_cons, h1]
      simp [stepPure]
    · simp [h2]

/-- The decoding loop never touches time position 0 of the buffer when every
iteration index is at least 1. -/
theorem foldl_zero_col {σ : Type} (dec : Decoder σ) (tgt : Tensor2) (B : Nat)
    (tf : Bool) (z : List Int) (l : List Nat) :
    ∀ s : LoopSt σ, (∀ i ∈ l, 1 ≤ i) →
      (∀ bRow ∈ s.out, bRow.getD 0 [] = z) →
      ∀ bRow ∈ (l.foldl (stepPure dec tgt B tf) s).out, bRow.getD 0 [] = z := by
  induction l with
  | nil => intro s _ h0; simpa using h0
  | cons i t ih =>
    intro s hl h0
    rw [List.foldl_cons]
    apply ih
    · exact fun j hj => hl j (List.mem_cons_of_mem _ hj)
    · intro bRow hb
      have hb' : bRow ∈ writeStep s.out i
          (dec.step s.target_input s.hidden s.cell).1 := hb
      obtain ⟨orig, ho, dr, -, hdr⟩ := exists_of_mem_writeStep _ _ _ _ hb'
      subst hdr
      rw [getD_set_ne orig i 0 dr []
        (by have := hl i (List.mem_cons_self _ _); omega)]
      exact h0 orig ho

/-- The decoding loop preserves the `(B, T, out_features)` shape of the
buffer, provided the decoder honours its declared width. -/
theorem foldl_shape {σ : Type} (dec : Decoder σ) (tgt : Tensor2) (B T : Nat)
    (tf : Bool) (hdec : dec.wfFor B) (l : List Nat) :
    ∀ s : LoopSt σ, s.out.length = B →
      (∀ bRow ∈ s.out, bRow.length = T) →
      (∀ bRow ∈ s.out, ∀ sl ∈ bRow, sl.length = dec.out_features) →
      (l.foldl (stepPure dec tgt B tf) s).out.length = B ∧
      (∀ bRow ∈ (l.foldl (stepPure dec tgt B tf) s).out, bRow.length = T) ∧
      (∀ bRow ∈ (l.foldl (stepPure dec tgt B tf) s).out, ∀ sl ∈ bRow,
        sl.length = dec.out_features) := by
  induction l with
  | nil => intro s h1 h2 h3; exact ⟨h1, h2, h3⟩
  | cons i t ih =>
    intro s h1 h2 h3
    rw [List.foldl_cons]
    have hw : (stepPure dec tgt B tf s i).out
        = writeStep s.out i (dec.step s.target_input s.hidden s.cell).1 := rfl
    apply ih
    · rw [hw, length_writeStep _ _ _
        (by rw [h1, (hdec s.target_input s.hidden s.cell).1]), h1]
    · intro bRow hb
      rw [hw] at hb
      obtain ⟨orig, ho, dr, -, hdr⟩ := exists_of_mem_writeStep _ _ _ _ hb
      subst hdr
      rw [List.length_set]
      exact h2 orig ho
    · intro bRow hb sl hsl
      rw [hw] at hb
      obtain ⟨orig, ho, dr, hd, hdr⟩ := exists_of_mem_writeStep _ _ _ _ hb
      subst hdr
      rcases mem_of_mem_set _ _ _ _ hsl with hm | hm
      · exact h3 orig ho sl hm
      · rw [hm]
        exact (hdec s.target_input s.hidden s.cell).2 dr hd

/-- C1: whenever the source and target batch sizes differ — the target being
a well-formed tensor with at least one column, per the spec's own
precondition `target.sequence_length >= 1` — `forward` fails with
`ShapeMismatchError`: the reshape of the target's start-token column to
`(batch_size, 1)` cannot succeed, and the failure happens before any output
buffer is handed to the caller (the result carries no buffer). -/
theorem forward_batch_mismatch {σ : Type} (m : SequenceToSequence σ)
    (src tgt : Tensor2) (tf : Bool) (hwf : tgt.wf) (hcols : 1 ≤ tgt.cols)
    (hne : src.rows ≠ tgt.rows) :
    m.forward src tgt tf = .error SeqErr.ShapeMismatchError :=
  forward_mismatch m src tgt tf (by rw [hwf.1]; exact fun hh => hne hh.symm)

/-- Witness for C1 at the spec's concrete scenario: source batch 3, target
batch 2. -/
theorem forward_batch_mismatch_witness :
    (cexTgtB2.wf ∧ 1 ≤ cexTgtB2.cols ∧ cexSrc3.rows ≠ cexTgtB2.rows) ∧
    cexModel.forward cexSrc3 cexTgtB2 true = .error SeqErr.ShapeMismatchError :=
  ⟨⟨by decide, by decide, by decide⟩,
    forward_batch_mismatch cexModel cexSrc3 cexTgtB2 true (by decide) (by decide)
      (by decide)⟩

/-- C3: for a well-formed target with batch matching the source and at least
one column, and a decoder honouring its declared width, `forward` succeeds
and the returned buffer has shape exactly
`(src.rows, tgt.cols, m.decoder.out_features)` — batch size taken from the
source, length from the target, and vocabulary width from the decoder's
declared `out_features`, which the orchestrator reads rather than
hard-codes. -/
theorem forward_output_shape {σ : Type} (m : SequenceToSequence σ)
    (src tgt : Tensor2) (tf : Bool) (hwf : tgt.wf) (hrows : tgt.rows = src.rows)
    (hcols : 1 ≤ tgt.cols) (hdec : m.decoder.wfFor src.rows) :
    ∃ out tr, m.forward src tgt tf = .ok (out, tr) ∧
      out.length = src.rows ∧
      (∀ bRow ∈ out, bRow.length = tgt.cols) ∧
      (∀ bRow ∈ out, ∀ sl ∈ bRow, sl.length = m.decoder.out_features) := by
  have hdl : tgt.data.length = src.rows := by rw [hwf.1, hrows]
  refine ⟨(finSt m src tgt tf).out, (finSt m src tgt tf).trace,
    forward_ok m src tgt tf hdl, ?_⟩
  unfold finSt
  apply foldl_shape m.decoder tgt src.rows tgt.cols tf hdec
  · show (zeros3 src.rows tgt.cols m.decoder.out_features).length = src.rows
    simp [zeros3]
  · intro bRow hb
    have hb' : bRow ∈ List.replicate src.rows
        (List.replicate tgt.cols (List.replicate m.decoder.out_features (0 : Int)))
      := hb
    rw [List.eq_of_mem_replicate hb']
    simp
  · intro bRow hb sl hsl
    have hb' : bRow ∈ List.replicate src.rows
        (List.replicate tgt.cols (List.replicate m.decoder.out_features (0 : Int)))
      := hb
    rw [List.eq_of_mem_replicate hb'] at hsl
    rw [List.eq_of_mem_replicate hsl]
    simp

/-- The constant concrete decoder honours its declared width for batch 1. -/
theorem cexDec_wf : cexDec.wfFor 1 :=
  fun _ _ _ => ⟨rfl, fun r hr => by rw [List.eq_of_mem_singleton hr]; rfl⟩

/-- Witness for C3 on a concrete run: batch 1, target length 3, width 3. -/
theorem forward_output_shape_witness :
    (cexTgt.wf ∧ cexTgt.rows = cexSrc.rows ∧ 1 ≤ cexTgt.cols ∧
      cexDec.wfFor cexSrc.rows) ∧
    (∃ out tr, cexModel.forward cexSrc cexTgt true = .ok (out, tr) ∧
      out.length = cexSrc.rows ∧
      (∀ bRow ∈ out, bRow.length = cexTgt.cols) ∧
      (∀ bRow ∈ out, ∀ sl ∈ bRow, sl.length = cexModel.decoder.out_features)) :=
  ⟨⟨by decide, rfl, by decide, cexDec_wf⟩,
    forward_output_shape cexModel cexSrc cexTgt true (by decide) rfl (by decide)
      cexDec_wf⟩

/-- C4: any buffer handed back by `forward` (spec precondition: the target
has at least one column) is all zero at time position 0 — the loop writes
only positions 1 and above, so `output[:, 0, :]` keeps the `torch.zeros`
value of width `out_features`. -/
theorem forward_first_position_zero {σ : Type} (m : SequenceToSequence σ)
    (src tgt : Tensor2) (tf : Bool) (out : List (List (List Int)))
    (tr : List CallEvent) (hcols : 1 ≤ tgt.cols)
    (h : m.forward src tgt tf = .ok (out, tr)) :
    ∀ bRow ∈ out, bRow.getD 0 [] = List.replicate m.decoder.out_features 0 := by
  obtain ⟨ho, -⟩ := forward_ok_elim m src tgt tf out tr h
  subst ho
  unfold finSt
  apply foldl_zero_col
  · exact fun i hi => (List.mem_range'_1.mp hi).1
  · intro bRow hb
    have hb' : bRow ∈ List.replicate src.rows
        (List.replicate tgt.cols (List.replicate m.decoder.out_features (0 : Int)))
      := hb
    rw [List.eq_of_mem_replicate hb']
    obtain ⟨n, hn⟩ : ∃ n, tgt.cols = n + 1 := ⟨tgt.cols - 1, by omega⟩
    rw [hn, List.replicate_succ, List.getD_cons_zero]

/-- Witness for C4 on a concrete teacher-forced run. -/
theorem forward_first_position_zero_witness :
    (1 ≤ cexTgt.cols ∧
      cexModel.forward cexSrc cexTgt true = .ok (cexBuf, cexTraceTF)) ∧
    ∀ bRow ∈ cexBuf, bRow.getD 0 []
      = List.replicate cexModel.decoder.out_features 0 :=
  ⟨⟨by decide, rfl⟩,
    forward_first_position_zero cexModel cexSrc cexTgt true cexBuf cexTraceTF
      (by decide) rfl⟩

/-- C5: a length-1 target (with matching batch) makes the loop body run zero
times: `forward` returns the all-zero `(batch, 1, vocab)` buffer and the
trace holds the single encoder call only — zero decoder invocations. -/
theorem forward_length_one {σ : Type} (m : SequenceToSequence σ)
    (src tgt : Tensor2) (tf : Bool) (hcols : tgt.cols = 1)
    (hrows : tgt.data.length = src.rows) :
    m.forward src tgt tf
        = .ok (zeros3 src.rows 1 m.decoder.out_features, [CallEvent.encodeCall]) ∧
      decodeEvents [CallEvent.encodeCall] = [] ∧
      ∀ bRow ∈ zeros3 src.rows 1 m.decoder.out_features, ∀ sl ∈ bRow, ∀ x ∈ sl,
        x = (0 : Int) := by
  refine ⟨?_, rfl, ?_⟩
  · rw [forward_ok m src tgt tf hrows]
    simp [finSt, initSt, hcols, zeros3]
  · intro bRow hb sl hsl x hx
    rw [List.eq_of_mem_replicate hb] at hsl
    rw [List.eq_of_mem_replicate hsl] at hx
    exact List.eq_of_mem_replicate hx

/-- Witness for C5 on a concrete length-1 target. -/
theorem forward_length_one_witness :
    (cexTgt1.cols = 1 ∧ cexTgt1.data.length = cexSrc.rows) ∧
    (cexModel.forward cexSrc cexTgt1 false
        = .ok (zeros3 cexSrc.rows 1 cexModel.decoder.out_features,
            [CallEvent.encodeCall]) ∧
      decodeEvents [CallEvent.encodeCall] = [] ∧
      ∀ bRow ∈ zeros3 cexSrc.rows 1 cexModel.decoder.out_features, ∀ sl ∈ bRow,
        ∀ x ∈ sl, x = (0 : Int)) :=
  ⟨⟨rfl, rfl⟩, forward_length_one cexModel cexSrc cexTgt1 false rfl rfl⟩

/-- C6: on every successful run the trace is the single encoder call followed
only by decoder calls — one per loop iteration, `target_length - 1` in all;
the encoder is invoked exactly once, before the loop, never inside it. -/
theorem forward_single_encoder_call {σ : Type} (m : SequenceToSequence σ)
    (src tgt : Tensor2) (tf : Bool) (out : List (List (List Int)))
    (tr : List CallEvent) (h : m.forward src tgt tf = .ok (out, tr)) :
    ∃ rest, tr = CallEvent.encodeCall :: rest ∧
      rest.length = tgt.cols - 1 ∧
      ∀ e ∈ rest, ∃ i inp d, e = CallEvent.decodeCall i inp d := by
  obtain ⟨-, ht⟩ := forward_ok_elim m src tgt tf out tr h
  subst ht
  unfold finSt
  obtain ⟨evts, h1, h2⟩ := foldl_trace m.decoder tgt src.rows tf
    (List.range' 1 (tgt.cols - 1)) (initSt m src tgt)
  refine ⟨evts.map (fun e => CallEvent.decodeCall e.1 e.2.1 e.2.2), ?_, ?_, ?_⟩
  · rw [h1]; rfl
  · rw [List.length_map]
    have hlen := congrArg List.length h2
    rw [List.length_map, List.length_range'] at hlen
    exact hlen
  · intro e he
    obtain ⟨ev, -, hev⟩ := List.mem_map.mp he
    exact ⟨ev.1, ev.2.1, ev.2.2, hev.symm⟩

/-- Witness for C6 on a concrete teacher-forced run of target length 3. -/
theorem forward_single_encoder_call_witness :
    cexModel.forward cexSrc cexTgt true = .ok (cexBuf, cexTraceTF) ∧
    ∃ rest, cexTraceTF = CallEvent.encodeCall :: rest ∧
      rest.length = cexTgt.cols - 1 ∧
      ∀ e ∈ rest, ∃ i inp d, e = CallEvent.decodeCall i inp d :=
  ⟨rfl, forward_single_encoder_call cexModel cexSrc cexTgt true cexBuf
    cexTraceTF rfl⟩

/-- C10: the `teacher_forcing` parameter of `forward` defaults to `True`:
a call omitting it is definitionally the teacher-forced call. -/
theorem forward_default_teacher_forcing {σ : Type} (m : SequenceToSequence σ)
    (src tgt : Tensor2) :
    m.forward src tgt = m.forward src tgt true := rfl

/-- Under teacher forcing, every decoder call of the loop receives the
ground-truth column preceding its iteration index, reshaped to
`(batch_size, 1)` — by induction over the remaining iteration indices. -/
theorem foldl_tf_inputs {σ : Type} (dec : Decoder σ) (tgt : Tensor2) (B : Nat) :
    ∀ (n a : Nat) (s : LoopSt σ), 1 ≤ a →
      s.target_input = ⟨[B, 1], (tgt.col (a - 1)).data⟩ →
      (∀ i inp d, CallEvent.decodeCall i inp d ∈ s.trace →
        inp = ⟨[B, 1], (tgt.col (i - 1)).data⟩) →
      ∀ i inp d, CallEvent.decodeCall i inp d ∈
          ((List.range' a n).foldl (stepPure dec tgt B true) s).trace →
        inp = ⟨[B, 1], (tgt.col (i - 1)).data⟩ := by
  intro n
  induction n with
  | zero =>
    intro a s ha hinp htr i inp d hmem
    exact htr i inp d (by simpa using hmem)
  | succ k ih =>
    intro a s ha hinp htr
    rw [List.range'_succ, List.foldl_cons]
    apply ih (a + 1) (stepPure dec tgt B true s a) (by omega)
    · show (⟨[B, 1], (tgt.col a).data⟩ : Tensor)
        = ⟨[B, 1], (tgt.col (a + 1 - 1)).data⟩
      simp
    · intro i inp d hmem
      have htr' : (stepPure dec tgt B true s a).trace
          = s.trace ++ [CallEvent.decodeCall a s.target_input
              (dec.step s.target_input s.hidden s.cell).1] := rfl
      rw [htr'] at hmem
      rcases List.mem_append.mp hmem with hm | hm
      · exact htr i inp d hm
      · have heq := List.mem_singleton.mp hm
        injection heq with h1 h2 h3
        subst h1
        rw [h2, hinp]

/-- C7: on every successful teacher-forced run, each decoder call of
iteration `i` receives column `i - 1` of the target reshaped to
`(batch_size, 1)` — ground truth at every step, independent of whatever the
decoder predicted, with the policy applied uniformly across the call. -/
theorem forward_teacher_forced_inputs {σ : Type} (m : SequenceToSequence σ)
    (src tgt : Tensor2) (out : List (List (List Int))) (tr : List CallEvent)
    (h : m.forward src tgt true = .ok (out, tr)) :
    ∀ i inp d, CallEvent.decodeCall i inp d ∈ tr →
      inp = ⟨[src.rows, 1], (tgt.col (i - 1)).data⟩ := by
  obtain ⟨-, ht⟩ := forward_ok_elim m src tgt true out tr h
  subst ht
  unfold finSt
  apply foldl_tf_inputs m.decoder tgt src.rows (tgt.cols - 1) 1 (initSt m src tgt)
    (by omega) rfl
  intro i inp d hmem
  exact CallEvent.noConfusion (List.mem_singleton.mp hmem)

/-- Witness for C7: in the concrete teacher-forced run, the decoder call of
iteration 2 receives column 1 of the target reshaped to `(1, 1)`. -/
theorem forward_teacher_forced_inputs_witness :
    cexModel.forward cexSrc cexTgt true = .ok (cexBuf, cexTraceTF) ∧
    (⟨[1, 1], [0]⟩ : Tensor) = ⟨[cexSrc.rows, 1], (cexTgt.col (2 - 1)).data⟩ :=
  ⟨rfl, forward_teacher_forced_inputs cexModel cexSrc cexTgt cexBuf cexTraceTF
    rfl 2 ⟨[1, 1], [0]⟩ [[0, 5, 2]] (by decide)⟩

/-- Under greedy decoding, the input of each decoder call is the `argmax(1)`
tensor of the scores of the immediately preceding call — by induction over
the remaining iteration indices, tracking that the pending input is the
argmax of the latest recorded scores. -/
theorem foldl_greedy_inputs {σ : Type} (dec : Decoder σ) (tgt : Tensor2)
    (B : Nat) :
    ∀ (n a : Nat) (s : LoopSt σ), 1 ≤ a →
      (∀ i inp d, CallEvent.decodeCall i inp d ∈ s.trace → i < a) →
      (∀ inp d, CallEvent.decodeCall (a - 1) inp d ∈ s.trace →
        s.target_input = argmax1 d) →
      (∀ i inp d inp' d', CallEvent.decodeCall i inp d ∈ s.trace →
        CallEvent.decodeCall (i + 1) inp' d' ∈ s.trace → inp' = argmax1 d) →
      ∀ i inp d inp' d',
        CallEvent.decodeCall i inp d ∈
          ((List.range' a n).foldl (stepPure dec tgt B false) s).trace →
        CallEvent.decodeCall (i + 1) inp' d' ∈
          ((List.range' a n).foldl (stepPure dec tgt B false) s).trace →
        inp' = argmax1 d := by
  intro n
  induction n with
  | zero =>
    intro a s ha hbound hlast hpairs i inp d inp' d' h1 h2
    exact hpairs i inp d inp' d' (by simpa using h1) (by simpa using h2)
  | succ k ih =>
    intro a s ha hbound hlast hpairs
    rw [List.range'_succ, List.foldl_cons]
    have htr' : (stepPure dec tgt B false s a).trace
        = s.trace ++ [CallEvent.decodeCall a s.target_input
            (dec.step s.target_input s.hidden s.cell).1] := rfl
    apply ih (a + 1) (stepPure dec tgt B false s a) (by omega)
    · intro i inp d hmem
      rw [htr'] at hmem
      rcases List.mem_append.mp hmem with hm | hm
      · exact Nat.lt_succ_of_lt (hbound i inp d hm)
      · have heq := List.mem_singleton.mp hm
        injection heq with h1 h2 h3
        omega
    · intro inp d hmem
      rw [htr'] at hmem
      rcases List.mem_append.mp hmem with hm | hm
      · exact absurd (hbound _ inp d hm) (by omega)
      · have heq := List.mem_singleton.mp hm
        injection heq with h1 h2 h3
        subst h3
        rfl
    · intro i inp d inp' d' h1 h2
      rw [htr'] at h1 h2
      rcases List.mem_append.mp h1 with hm1 | hm1
      · rcases List.mem_append.mp h2 with hm2 | hm2
        · exact hpairs i inp d inp' d' hm1 hm2
        · have heq := List.mem_singleton.mp hm2
          injection heq with e1 e2 e3
          subst e2
          apply hlast inp d
          have hia : i = a - 1 := by omega
          rw [← hia]
          exact hm1
      · have heq := List.mem_singleton.mp hm1
        injection heq with e1 e2 e3
        rcases List.mem_append.mp h2 with hm2 | hm2
        · have := hbound _ inp' d' hm2
          omega
        · have heq2 := List.mem_singleton.mp hm2
          injection heq2 with f1 f2 f3
          omega

/-- C2 as amended: on every successful greedy (`teacher_forcing=False`) run,
the input of the decoder call following the call that returned scores `d` is
`d.argmax(1)` — the first-maximal index of each batch row — as a flat tensor
of shape `(batch_size,)`; the source performs no reshape to
`(batch_size, 1)` on this path. -/
theorem forward_greedy_inputs {σ : Type} (m : SequenceToSequence σ)
    (src tgt : Tensor2) (out : List (List (List Int))) (tr : List CallEvent)
    (h : m.forward src tgt false = .ok (out, tr)) :
    ∀ i inp d inp' d', CallEvent.decodeCall i inp d ∈ tr →
      CallEvent.decodeCall (i + 1) inp' d' ∈ tr →
      inp' = argmax1 d ∧ inp'.shape = [d.length] := by
  obtain ⟨-, ht⟩ := forward_ok_elim m src tgt false out tr h
  subst ht
  unfold finSt
  intro i inp d inp' d' h1 h2
  have hmain := foldl_greedy_inputs m.decoder tgt src.rows (tgt.cols - 1) 1
    (initSt m src tgt) (by omega)
    (fun i inp d hmem => CallEvent.noConfusion (List.mem_singleton.mp hmem))
    (fun inp d hmem => CallEvent.noConfusion (List.mem_singleton.mp hmem))
    (fun i inp d inp' d' hm1 hm2 =>
      CallEvent.noConfusion (List.mem_singleton.mp hm1))
    i inp d inp' d' h1 h2
  exact ⟨hmain, by rw [hmain]; rfl⟩

/-- Counterexample to C2 as stated: in a concrete greedy run the second
decoder call's recorded input carries the argmax values but has flat shape
`(1,)`, not the claimed reshaped `(batch_size, 1) = (1, 1)`. -/
theorem forward_greedy_input_shape_cex :
    cexModel.forward cexSrc cexTgt false = .ok (cexBuf, cexTraceGreedy) ∧
    CallEvent.decodeCall 2 ⟨[1], [1]⟩ [[0, 5, 2]] ∈ cexTraceGreedy ∧
    (⟨[1], [1]⟩ : Tensor).data = (argmax1 [[0, 5, 2]]).data ∧
    (⟨[1], [1]⟩ : Tensor).shape ≠ [1, 1] :=
  ⟨rfl, by decide, rfl, by decide⟩

/-- Witness for the amended C2 on the concrete greedy run: the second call's
input equals `argmax1` of the first call's scores, with flat shape. -/
theorem forward_greedy_inputs_witness :
    cexModel.forward cexSrc cexTgt false = .ok (cexBuf, cexTraceGreedy) ∧
    ((⟨[1], [1]⟩ : Tensor) = argmax1 [[0, 5, 2]] ∧
      (⟨[1], [1]⟩ : Tensor).shape = [([[0, 5, 2]] : List (List Int)).length]) :=
  ⟨rfl, forward_greedy_inputs cexModel cexSrc cexTgt cexBuf cexTraceGreedy rfl
    1 ⟨[1, 1], [0]⟩ [[0, 5, 2]] ⟨[1], [1]⟩ [[0, 5, 2]] (by decide) (by decide)⟩

/-- Under teacher forcing, the decoding loop is insensitive to how the
decoder behaves away from ground-truth inputs: two decoders that agree on
every reshaped target column produce identical loop states. -/
theorem foldl_tf_agree {σ : Type} (dec₁ dec₂ : Decoder σ) (tgt : Tensor2)
    (B : Nat)
    (hagree : ∀ j h c, j < tgt.cols →
      dec₁.step ⟨[B, 1], (tgt.col j).data⟩ h c
        = dec₂.step ⟨[B, 1], (tgt.col j).data⟩ h c) :
    ∀ (n a : Nat) (s : LoopSt σ), 1 ≤ a → a + n ≤ tgt.cols →
      s.target_input = ⟨[B, 1], (tgt.col (a - 1)).data⟩ →
      (List.range' a n).foldl (stepPure dec₁ tgt B true) s
        = (List.range' a n).foldl (stepPure dec₂ tgt B true) s := by
  intro n
  induction n with
  | zero => intro a s _ _ _; rfl
  | succ k ih =>
    intro a s ha hle hinp
    rw [List.range'_succ, List.foldl_cons, List.foldl_cons]
    have hstep : stepPure dec₁ tgt B true s a = stepPure dec₂ tgt B true s a := by
      simp only [stepPure]
      rw [hinp, hagree (a - 1) s.hidden s.cell (by omega)]
    rw [hstep]
    apply ih (a + 1) (stepPure dec₂ tgt B true s a) (by omega) (by omega)
    show (⟨[B, 1], (tgt.col a).data⟩ : Tensor)
      = ⟨[B, 1], (tgt.col (a + 1 - 1)).data⟩
    simp

/-- C8: under teacher forcing no decoder input depends on previous
predictions: two decoders of equal declared width that agree on every
teacher-forced input (a target column reshaped to `(batch_size, 1)`) — but
may differ arbitrarily elsewhere, in particular on whatever the model would
have predicted — give identical `forward` results on identical
`source`/`target`.  With the collaborators fixed and deterministic, repeated
calls are therefore identical. -/
theorem forward_teacher_forcing_determinism {σ : Type} (enc : Encoder σ)
    (dec₁ dec₂ : Decoder σ) (src tgt : Tensor2)
    (hV : dec₁.out_features = dec₂.out_features)
    (hagree : ∀ j h c, j < tgt.cols →
      dec₁.step ⟨[src.rows, 1], (tgt.col j).data⟩ h c
        = dec₂.step ⟨[src.rows, 1], (tgt.col j).data⟩ h c)
    (hcols : 1 ≤ tgt.cols) :
    SequenceToSequence.forward ⟨enc, dec₁⟩ src tgt true
      = SequenceToSequence.forward ⟨enc, dec₂⟩ src tgt true := by
  by_cases hdl : tgt.data.length = src.rows
  · rw [forward_ok ⟨enc, dec₁⟩ src tgt true hdl,
      forward_ok ⟨enc, dec₂⟩ src tgt true hdl]
    suffices hfin : finSt ⟨enc, dec₁⟩ src tgt true
        = finSt ⟨enc, dec₂⟩ src tgt true by rw [hfin]
    unfold finSt initSt
    dsimp only
    rw [hV]
    exact foldl_tf_agree dec₁ dec₂ tgt src.rows hagree (tgt.cols - 1) 1 _
      (by omega) (by omega) rfl
  · rw [forward_mismatch ⟨enc, dec₁⟩ src tgt true hdl,
      forward_mismatch ⟨enc, dec₂⟩ src tgt true hdl]

/-- Witness for C8: the constant decoder and a decoder that differs from it
on every flat input agree under teacher forcing. -/
theorem forward_teacher_forcing_determinism_witness :
    (cexDec.out_features = cexDec2.out_features ∧
      (∀ j h c, j < cexTgt.cols →
        cexDec.step ⟨[cexSrc.rows, 1], (cexTgt.col j).data⟩ h c
          = cexDec2.step ⟨[cexSrc.rows, 1], (cexTgt.col j).data⟩ h c) ∧
      1 ≤ cexTgt.cols) ∧
    SequenceToSequence.forward ⟨cexEnc, cexDec⟩ cexSrc cexTgt true
      = SequenceToSequence.forward ⟨cexEnc, cexDec2⟩ cexSrc cexTgt true :=
  ⟨⟨rfl, fun _ _ _ _ => rfl, by decide⟩,
    forward_teacher_forcing_determinism cexEnc cexDec cexDec2 cexSrc cexTgt rfl
      (fun _ _ _ _ => rfl) (by decide)⟩

/-- Extracting decoder events from a pure decode-call event list recovers
the original triples. -/
theorem decodeEvents_decodeCalls (evts : List (Nat × Tensor × List (List Int))) :
    decodeEvents (evts.map (fun e => CallEvent.decodeCall e.1 e.2.1 e.2.2))
      = evts := by
  induction evts with
  | nil => rfl
  | cons e t ih =>
    show (e.1, e.2.1, e.2.2) :: decodeEvents (t.map _) = e :: t
    rw [ih]

/-- Decoder-event extraction distributes over trace concatenation. -/
theorem decodeEvents_append (xs ys : List CallEvent) :
    decodeEvents (xs ++ ys) = decodeEvents xs ++ decodeEvents ys :=
  List.filterMap_append xs ys _

/-- The decoding loop writes each iteration's scores at its own index and
preserves every earlier time slice; hence each recorded decoder event is
either pre-existing or readable back from the final buffer at its index. -/
theorem foldl_writes {σ : Type} (dec : Decoder σ) (tgt : Tensor2) (B T : Nat)
    (tf : Bool) (hdec : dec.wfFor B) :
    ∀ (n a : Nat) (s : LoopSt σ), 1 ≤ a → a + n ≤ T →
      s.out.length = B → (∀ bRow ∈ s.out, bRow.length = T) →
      (∀ j, j < a →
        timeSlice ((List.range' a n).foldl (stepPure dec tgt B tf) s).out j
          = timeSlice s.out j) ∧
      (∀ i inp d, CallEvent.decodeCall i inp d ∈
          ((List.range' a n).foldl (stepPure dec tgt B tf) s).trace →
        CallEvent.decodeCall i inp d ∈ s.trace ∨
          timeSlice ((List.range' a n).foldl (stepPure dec tgt B tf) s).out i
            = d) := by
  intro n
  induction n with
  | zero =>
    intro a s ha hle h1 h2
    constructor
    · intro j hj; rfl
    · intro i inp d hmem; exact Or.inl hmem
  | succ k ih =>
    intro a s ha hle h1 h2
    rw [List.range'_succ, List.foldl_cons]
    have hw : (stepPure dec tgt B tf s a).out
        = writeStep s.out a (dec.step s.target_input s.hidden s.cell).1 := rfl
    have hdlen : ((dec.step s.target_input s.hidden s.cell).1).length = B :=
      (hdec _ _ _).1
    have h1' : (stepPure dec tgt B tf s a).out.length = B := by
      rw [hw, length_writeStep _ _ _ (by rw [h1, hdlen]), h1]
    have h2' : ∀ bRow ∈ (stepPure dec tgt B tf s a).out, bRow.length = T := by
      intro bRow hb
      rw [hw] at hb
      obtain ⟨orig, ho, dr, -, hset⟩ := exists_of_mem_writeStep _ _ _ _ hb
      subst hset
      rw [List.length_set]
      exact h2 orig ho
    obtain ⟨ihpres, ihev⟩ := ih (a + 1) (stepPure dec tgt B tf s a) (by omega)
      (by omega) h1' h2'
    constructor
    · intro j hj
      rw [ihpres j (by omega), hw,
        timeSlice_writeStep_ne _ _ _ _ (by rw [h1, hdlen]) (by omega)]
    · intro i inp d hmem
      rcases ihev i inp d hmem with hin | hsl
      · have htr : (stepPure dec tgt B tf s a).trace
            = s.trace ++ [CallEvent.decodeCall a s.target_input
                (dec.step s.target_input s.hidden s.cell).1] := rfl
        rw [htr] at hin
        rcases List.mem_append.mp hin with hm | hm
        · exact Or.inl hm
        · have heq := List.mem_singleton.mp hm
          injection heq with e1 e2 e3
          subst e1
          subst e3
          refine Or.inr ?_
          rw [ihpres i (by omega), hw,
            timeSlice_writeStep_self _ _ _ (by rw [h1, hdlen])
              (fun bRow hb => by rw [h2 bRow hb]; omega)]
      · exact Or.inr hsl

/-- C9: on a successful run with a well-formed matching target and a decoder
honouring its width, the decoder-call events carry iteration indices exactly
`1, 2, ..., target_length - 1`, in that strictly increasing order — each of
time positions `1..target_length-1` is written exactly once, in increasing
time order — and the final buffer holds each event's `(batch, vocab)` score
rows at its own time index. -/
theorem forward_write_discipline {σ : Type} (m : SequenceToSequence σ)
    (src tgt : Tensor2) (tf : Bool) (out : List (List (List Int)))
    (tr : List CallEvent)
    (hcols : 1 ≤ tgt.cols) (hdec : m.decoder.wfFor src.rows)
    (h : m.forward src tgt tf = .ok (out, tr)) :
    (decodeEvents tr).map (fun e => e.1) = List.range' 1 (tgt.cols - 1) ∧
    ∀ i inp d, CallEvent.decodeCall i inp d ∈ tr → timeSlice out i = d := by
  obtain ⟨ho, ht⟩ := forward_ok_elim m src tgt tf out tr h
  subst ho
  subst ht
  unfold finSt
  constructor
  · obtain ⟨evts, h1, h2⟩ := foldl_trace m.decoder tgt src.rows tf
      (List.range' 1 (tgt.cols - 1)) (initSt m src tgt)
    rw [h1, show (initSt m src tgt).trace = [CallEvent.encodeCall] from rfl,
      decodeEvents_append, decodeEvents_decodeCalls,
      show decodeEvents [CallEvent.encodeCall] = [] from rfl, List.nil_append]
    exact h2
  · have hz1 : (initSt m src tgt).out.length = src.rows := by
      show (List.replicate src.rows _).length = src.rows
      rw [List.length_replicate]
    have hz2 : ∀ bRow ∈ (initSt m src tgt).out, bRow.length = tgt.cols := by
      intro bRow hb
      have hb' : bRow ∈ List.replicate src.rows
          (List.replicate tgt.cols
            (List.replicate m.decoder.out_features (0 : Int))) := hb
      rw [List.eq_of_mem_replicate hb', List.length_replicate]
    obtain ⟨-, hev⟩ := foldl_writes m.decoder tgt src.rows tgt.cols tf hdec
      (tgt.cols - 1) 1 (initSt m src tgt) (by omega) (by omega) hz1 hz2
    intro i inp d hmem
    rcases hev i inp d hmem with hin | hsl
    · exact absurd (List.mem_singleton.mp hin)
        (fun hh => CallEvent.noConfusion hh)
    · exact hsl

/-- Witness for C9 on the concrete teacher-forced run: the event indices are
`[1, 2]` and each event's scores are read back from the buffer. -/
theorem forward_write_discipline_witness :
    (1 ≤ cexTgt.cols ∧ cexDec.wfFor cexSrc.rows ∧
      cexModel.forward cexSrc cexTgt true = .ok (cexBuf, cexTraceTF)) ∧
    ((decodeEvents cexTraceTF).map (fun e => e.1)
        = List.range' 1 (cexTgt.cols - 1) ∧
      ∀ i inp d, CallEvent.decodeCall i inp d ∈ cexTraceTF →
        timeSlice cexBuf i = d) :=
  ⟨⟨by decide, cexDec_wf, rfl⟩,
    forward_write_discipline cexModel cexSrc cexTgt true cexBuf cexTraceTF
      (by decide) cexDec_wf rfl⟩
